import Mathlib

/-!
Verification development for the K-Base branching-conversation store.

The definitions below are a shallow embedding of the TypeScript sources:
the Zustand chat store (`frontend/src/stores/chatStore.ts`), the
type declarations (`frontend/src/types/models.ts`), and the API client
(`frontend/src/api/client.ts`).  JavaScript `Map`s are modelled as
insertion-ordered association lists (JS `Map` iteration order is insertion
order, and `Map.set` on an existing key keeps its position), strings as
Lean `String`/`List Char`, and the `while` loop of `getNodePath` as a
fuel-indexed recursion where divergence of the loop is represented by the
walk returning `none` at every fuel.
-/

namespace KBase

/-- Association-list model of a JS `Map` with string keys. -/
abbrev StrMap (α : Type) := List (String × α)

/-- `Map.get`: first entry whose key matches. -/
def mapGet {α : Type} (m : StrMap α) (k : String) : Option α :=
  match m with
  | [] => none
  | (k', v) :: rest => if k' = k then some v else mapGet rest k

/-- `Map.set`: replace the value in place when the key exists (keeping its
insertion position, as JS `Map.set` does), otherwise append a new entry. -/
def mapSet {α : Type} (m : StrMap α) (k : String) (v : α) : StrMap α :=
  match m with
  | [] => [(k, v)]
  | (k', v') :: rest => if k' = k then (k', v) :: rest else (k', v') :: mapSet rest k v

/-- `Map.values()`, in insertion order. -/
def mapValues {α : Type} (m : StrMap α) : List α := m.map Prod.snd

/-- `GenerationConfig` from `frontend/src/types/models.ts`. -/
structure GenerationConfig where
  provider : String
  model : String
  temperature : Option Rat
  maxTokens : Option Nat
deriving Repr, DecidableEq

/-- The member list of the `NodeType` union declared in
`frontend/src/types/models.ts` (lines 6-11), in declaration order. -/
def nodeTypeStrings : List String :=
  ["user_message", "assistant_message", "user_note", "branch_summary", "system"]

/-- The member list of the `NodeStatus` union declared in
`frontend/src/types/models.ts`. -/
def nodeStatusStrings : List String :=
  ["active", "collapsed", "abandoned", "merged"]

/-- The node-type strings that `SideChatPanel.tsx` dispatches on when
rendering a side-chat message (`message.nodeType === 'side_chat_user'`,
`message.nodeType === 'side_chat_assistant'`). -/
def sideChatPanelDispatchTypes : List String :=
  ["side_chat_user", "side_chat_assistant"]

/-- `Node` from `frontend/src/types/models.ts`.  `Date` fields are modelled
as naturals (epoch milliseconds).  The frontend-only `children` cache field
(populated only during UI tree building, never touched by the store
operations embedded here) is omitted. -/
structure Node where
  id : String
  sessionId : String
  parentId : Option String
  content : String
  nodeType : String
  status : String
  branchName : Option String
  collapsedSummary : Option String
  generationConfig : Option GenerationConfig
  tokenCount : Option Nat
  siblingIndex : Int
  isSelectedPath : Bool
  createdAt : Nat
  updatedAt : Nat
deriving Repr, DecidableEq

/-- `Topic` from `frontend/src/types/models.ts`. -/
structure Topic where
  id : String
  name : String
  description : Option String
  createdAt : Nat
  updatedAt : Nat
deriving Repr, DecidableEq

/-- `Session` from `frontend/src/types/models.ts`. -/
structure Session where
  id : String
  topicId : String
  name : String
  description : Option String
  rootNodeId : Option String
  createdAt : Nat
  updatedAt : Nat
deriving Repr, DecidableEq

/-- The state of the Zustand chat store (`frontend/src/stores/chatStore.ts`). -/
structure ChatState where
  currentTopicId : Option String
  currentSessionId : Option String
  currentNodeId : Option String
  topics : StrMap Topic
  sessions : StrMap Session
  nodes : StrMap Node
  expandedNodes : List String
  selectedBranches : StrMap String
  isStreaming : Bool
deriving Repr, DecidableEq

/-- `addNode` from `chatStore.ts`: `state.nodes.set(node.id, node)`. -/
def addNode (node : Node) (s : ChatState) : ChatState :=
  { s with nodes := mapSet s.nodes node.id node }

/-- `selectBranch` from `chatStore.ts` (lines 98-101):
`state.selectedBranches.set(parentId, childId)`.  Nothing else is touched. -/
def selectBranch (parentId childId : String) (s : ChatState) : ChatState :=
  { s with selectedBranches := mapSet s.selectedBranches parentId childId }

/-- `toggleNodeExpanded` from `chatStore.ts`: toggles membership of
`nodeId` in the `expandedNodes` set (a JS `Set`, modelled as an
insertion-ordered duplicate-free list). -/
def toggleNodeExpanded (nodeId : String) (s : ChatState) : ChatState :=
  if s.expandedNodes.contains nodeId then
    { s with expandedNodes := s.expandedNodes.filter (fun x => x != nodeId) }
  else
    { s with expandedNodes := s.expandedNodes ++ [nodeId] }

/-- `collapseNode` from `chatStore.ts` (lines 112-122): if the node exists,
replace it by a copy whose `status` is `"collapsed"` and whose
`collapsedSummary` is the given summary; every other field is spread from
the old node (`...node`). -/
def collapseNode (nodeId summary : String) (s : ChatState) : ChatState :=
  match mapGet s.nodes nodeId with
  | none => s
  | some node =>
      { s with
        nodes := mapSet s.nodes nodeId
          { node with status := "collapsed", collapsedSummary := some summary } }

/-- The `while` loop of `getNodePath` from `chatStore.ts` (lines 124-137),
fuel-indexed.  `none` for the current id means the loop condition
`while (currentId)` is false and the loop exits; a missing node
(`if (!node) break`) also exits; otherwise the node is unshifted onto the
path and the walk moves to `node.parentId`.  Exhausting the fuel returns
`none`, representing a loop that has not yet terminated. -/
def getNodePathAux (nodes : StrMap Node) : Option String → Nat → Option (List Node)
  | none, _ => some []
  | some _, 0 => none
  | some cid, fuel + 1 =>
      match mapGet nodes cid with
      | none => some []
      | some node => (getNodePathAux nodes node.parentId fuel).map (fun path => path ++ [node])

/-- The loop of `getNodePath` terminates on `nodeId` with result `path`. -/
def getNodePathResult (nodes : StrMap Node) (nodeId : String) (path : List Node) : Prop :=
  ∃ fuel, getNodePathAux nodes (some nodeId) fuel = some path

/-- The loop of `getNodePath` never terminates on `nodeId`: no amount of
fuel reaches the loop exit. -/
def getNodePathDiverges (nodes : StrMap Node) (nodeId : String) : Prop :=
  ∀ fuel, getNodePathAux nodes (some nodeId) fuel = none

/-- The comparator of `getNodeChildren`:
`.sort((a, b) => a.siblingIndex - b.siblingIndex)`. -/
def sibLE (a b : Node) : Prop := a.siblingIndex ≤ b.siblingIndex

instance : DecidableRel sibLE := fun a b =>
  inferInstanceAs (Decidable (a.siblingIndex ≤ b.siblingIndex))

instance : IsTotal Node sibLE := ⟨fun a b => Int.le_total a.siblingIndex b.siblingIndex⟩

instance : IsTrans Node sibLE := ⟨fun _ _ _ h h' => le_trans h h'⟩

/-- `getNodeChildren` from `chatStore.ts` (lines 139-144):
`Array.from(nodes.values()).filter(n => n.parentId === nodeId)` followed by
`.sort((a, b) => a.siblingIndex - b.siblingIndex)`.  JS `Array.prototype.sort`
is stable, so the sort is modelled by the stable `List.insertionSort`. -/
def getNodeChildren (nodeId : String) (s : ChatState) : List Node :=
  List.insertionSort sibLE
    ((mapValues s.nodes).filter (fun n => n.parentId == some nodeId))

/-! ### Association-list lemmas -/

theorem mapGet_mapSet_self {α : Type} (m : StrMap α) (k : String) (v : α) :
    mapGet (mapSet m k v) k = some v := by
  induction m with
  | nil => simp [mapGet, mapSet]
  | cons p rest ih =>
      obtain ⟨k', v'⟩ := p
      by_cases h : k' = k <;> simp [mapGet, mapSet, h, ih]

theorem mapGet_mapSet_ne {α : Type} (m : StrMap α) (k q : String) (v : α)
    (h : q ≠ k) : mapGet (mapSet m k v) q = mapGet m q := by
  have hk : k ≠ q := Ne.symm h
  induction m with
  | nil => simp [mapGet, mapSet, hk]
  | cons p rest ih =>
      obtain ⟨k', v'⟩ := p
      by_cases h' : k' = k
      · subst h'
        simp [mapGet, mapSet, hk]
      · simp [mapGet, mapSet, h', ih]

theorem keys_mapSet {α : Type} (m : StrMap α) (k : String) (v : α) :
    (mapSet m k v).map Prod.fst =
      if (mapGet m k).isSome then m.map Prod.fst else m.map Prod.fst ++ [k] := by
  induction m with
  | nil => simp [mapGet, mapSet]
  | cons p rest ih =>
      obtain ⟨k', v'⟩ := p
      by_cases h' : k' = k
      · simp [mapGet, mapSet, h']
      · by_cases hs : (mapGet rest k).isSome <;>
          simp [mapGet, mapSet, h', ih, hs]

theorem not_mem_keys_of_mapGet_none {α : Type} (m : StrMap α) (k : String)
    (h : mapGet m k = none) : k ∉ m.map Prod.fst := by
  induction m with
  | nil => simp
  | cons p rest ih =>
      obtain ⟨k', v'⟩ := p
      by_cases h' : k' = k
      · simp [mapGet, h'] at h
      · simp only [mapGet, if_neg h'] at h
        simp only [List.map_cons, List.mem_cons]
        push_neg
        exact ⟨fun hq => h' hq.symm, ih h⟩

theorem keys_mapSet_nodup {α : Type} (m : StrMap α) (k : String) (v : α)
    (h : (m.map Prod.fst).Nodup) : ((mapSet m k v).map Prod.fst).Nodup := by
  rw [keys_mapSet]
  by_cases hs : (mapGet m k).isSome
  · simpa [hs] using h
  · have hn : mapGet m k = none := by
      cases hg : mapGet m k
      · rfl
      · simp [hg] at hs
    have hnm := not_mem_keys_of_mapGet_none m k hn
    rw [hn]
    simp only [Option.isSome_none, if_neg Bool.false_ne_true]
    rw [List.nodup_append]
    exact ⟨h, List.nodup_singleton k, by simpa using hnm⟩

/-! ### Concrete stores used as test inputs -/

/-- Blank store state (the initial state of the Zustand store). -/
def emptyState : ChatState :=
  { currentTopicId := none, currentSessionId := none, currentNodeId := none,
    topics := [], sessions := [], nodes := [], expandedNodes := [],
    selectedBranches := [], isStreaming := false }

/-- Root node of the concrete test tree. -/
def nodeP : Node :=
  { id := "p", sessionId := "s1", parentId := none, content := "root question",
    nodeType := "assistant_message", status := "active", branchName := none,
    collapsedSummary := none, generationConfig := none, tokenCount := none,
    siblingIndex := 0, isSelectedPath := true, createdAt := 1, updatedAt := 1 }

/-- First main-conversation child of `nodeP`; currently on the selected path. -/
def nodeA : Node :=
  { id := "a", sessionId := "s1", parentId := some "p", content := "explain caching",
    nodeType := "user_message", status := "active", branchName := none,
    collapsedSummary := none, generationConfig := none, tokenCount := none,
    siblingIndex := 0, isSelectedPath := true, createdAt := 2, updatedAt := 2 }

/-- Second main-conversation child of `nodeP`; not on the selected path. -/
def nodeB : Node :=
  { id := "b", sessionId := "s1", parentId := some "p", content := "explain indexing",
    nodeType := "user_message", status := "active", branchName := none,
    collapsedSummary := none, generationConfig := none, tokenCount := none,
    siblingIndex := 1, isSelectedPath := false, createdAt := 3, updatedAt := 3 }

/-- Concrete store holding the three-node test tree. -/
def stateC1 : ChatState :=
  { emptyState with nodes := [("p", nodeP), ("a", nodeA), ("b", nodeB)] }

/-! ### Claim C1 -/

/-- Everything `selectBranch` guarantees about the store: the node map is
untouched (in particular every `isSelectedPath` flag), the
`selectedBranches` map now sends the parent to the chosen child, other
parents are unaffected, and the map keys stay duplicate-free (so each
parent designates at most one selected child). -/
def SelectBranchSpec (s : ChatState) (p c : String) : Prop :=
  (selectBranch p c s).nodes = s.nodes
  ∧ mapGet (selectBranch p c s).selectedBranches p = some c
  ∧ (∀ q, q ≠ p → mapGet (selectBranch p c s).selectedBranches q = mapGet s.selectedBranches q)
  ∧ ((selectBranch p c s).selectedBranches.map Prod.fst).Nodup

/-- C1 (counterexample): `selectBranch` does not set `isSelectedPath`.
After `selectBranch "p" "b"` on the concrete store, the target node `b`
still has `isSelectedPath = false` and its sibling `a` still has
`isSelectedPath = true`, contradicting the claim that the flag is set on
the target and cleared on the other main-conversation siblings. -/
theorem selectBranch_isSelectedPath_cex :
    (mapGet (selectBranch "p" "b" stateC1).nodes "b").map Node.isSelectedPath = some false
    ∧ (mapGet (selectBranch "p" "b" stateC1).nodes "a").map Node.isSelectedPath = some true := by
  decide

/-- C1 (amended): `selectBranch parentId childId` only records the choice in
the `selectedBranches` map (parent to child), leaving every node — and hence
every `isSelectedPath` flag — unchanged; with duplicate-free keys the map
designates at most one selected child per parent, an invariant every
sequence of `selectBranch` calls preserves. -/
theorem selectBranch_records_selection (s : ChatState) (p c : String)
    (hnd : (s.selectedBranches.map Prod.fst).Nodup) : SelectBranchSpec s p c := by
  refine ⟨rfl, ?_, ?_, ?_⟩
  · exact mapGet_mapSet_self s.selectedBranches p c
  · intro q hq
    exact mapGet_mapSet_ne s.selectedBranches p q c hq
  · exact keys_mapSet_nodup s.selectedBranches p c hnd

/-- C1 witness: the amended theorem applied to the concrete store. -/
theorem selectBranch_records_selection_witness :
    (stateC1.selectedBranches.map Prod.fst).Nodup ∧ SelectBranchSpec stateC1 "p" "b" :=
  ⟨by decide, selectBranch_records_selection stateC1 "p" "b" (by decide)⟩

/-! ### Claim C7 -/

/-- Everything `collapseNode` (followed by a toggle of the node's expansion,
the store's "expand" action) guarantees: the collapsed node keeps all fields
except `status` and `collapsedSummary`, every other node is untouched, every
other piece of store state is untouched, and expanding afterwards does not
touch the node map at all. -/
def CollapseNodeSpec (s : ChatState) (nodeId summary : String) (node : Node) : Prop :=
  mapGet (collapseNode nodeId summary s).nodes nodeId =
    some { node with status := "collapsed", collapsedSummary := some summary }
  ∧ (∀ n', mapGet (collapseNode nodeId summary s).nodes nodeId = some n' →
      n'.content = node.content ∧ n'.parentId = node.parentId
      ∧ n'.siblingIndex = node.siblingIndex ∧ n'.isSelectedPath = node.isSelectedPath
      ∧ n'.nodeType = node.nodeType ∧ n'.id = node.id
      ∧ n'.status = "collapsed" ∧ n'.collapsedSummary = some summary)
  ∧ (∀ other, other ≠ nodeId →
      mapGet (collapseNode nodeId summary s).nodes other = mapGet s.nodes other)
  ∧ (collapseNode nodeId summary s).selectedBranches = s.selectedBranches
  ∧ (collapseNode nodeId summary s).expandedNodes = s.expandedNodes
  ∧ (collapseNode nodeId summary s).topics = s.topics
  ∧ (collapseNode nodeId summary s).sessions = s.sessions
  ∧ (collapseNode nodeId summary s).currentTopicId = s.currentTopicId
  ∧ (collapseNode nodeId summary s).currentSessionId = s.currentSessionId
  ∧ (collapseNode nodeId summary s).currentNodeId = s.currentNodeId
  ∧ (collapseNode nodeId summary s).isStreaming = s.isStreaming
  ∧ (toggleNodeExpanded nodeId (collapseNode nodeId summary s)).nodes
      = (collapseNode nodeId summary s).nodes

/-- C7: collapsing a node rewrites only its `status` (to `"collapsed"`) and
its `collapsedSummary`; its content, parent, sibling index, selection flag
and identity are preserved, all other nodes and all other store state are
unchanged, and the subsequent expand action (`toggleNodeExpanded`) leaves
the node map — hence the branch content and its summary — intact. -/
theorem collapseNode_frame (s : ChatState) (nodeId summary : String) (node : Node)
    (h : mapGet s.nodes nodeId = some node) : CollapseNodeSpec s nodeId summary node := by
  have hc : collapseNode nodeId summary s =
      { s with nodes := mapSet s.nodes nodeId { node with status := "collapsed", collapsedSummary := some summary } } := by
    unfold collapseNode
    rw [h]
  refine ⟨?_, ?_, ?_, ?_, ?_, ?_, ?_, ?_, ?_, ?_, ?_, ?_⟩
  · rw [hc]
    exact mapGet_mapSet_self _ _ _
  · intro n' hn'
    rw [hc] at hn'
    have := mapGet_mapSet_self s.nodes nodeId
      { node with status := "collapsed", collapsedSummary := some summary }
    rw [this] at hn'
    cases hn'
    simp
  · intro other hother
    rw [hc]
    exact mapGet_mapSet_ne _ _ _ _ hother
  · rw [hc]
  · rw [hc]
  · rw [hc]
  · rw [hc]
  · rw [hc]
  · rw [hc]
  · rw [hc]
  · rw [hc]
  · unfold toggleNodeExpanded
    split <;> rfl

/-- C7 witness: collapsing node `a` of the concrete store. -/
theorem collapseNode_frame_witness :
    mapGet stateC1.nodes "a" = some nodeA ∧ CollapseNodeSpec stateC1 "a" "a summary" nodeA :=
  ⟨by decide, collapseNode_frame stateC1 "a" "a summary" nodeA (by decide)⟩

/-! ### Well-formed stores and the `getNodePath` walk -/

/-- A store is well formed for a depth measure `dm` when its keys are
duplicate-free, every entry's `id` field matches its key, and every parent
link points at an existing entry of strictly smaller measure.  Any acyclic
forest-shaped store admits such a measure (node depth). -/
def storeWFb (nodes : StrMap Node) (dm : String → Nat) : Bool :=
  decide (nodes.map Prod.fst).Nodup &&
  nodes.all (fun p =>
    p.2.id == p.1 &&
    (match p.2.parentId with
     | none => true
     | some pid => (mapGet nodes pid).isSome && decide (dm pid < dm p.1)))

theorem mapGet_mem {α : Type} (m : StrMap α) (k : String) (v : α)
    (h : mapGet m k = some v) : (k, v) ∈ m := by
  induction m with
  | nil => simp [mapGet] at h
  | cons p rest ih =>
      obtain ⟨k', v'⟩ := p
      by_cases h' : k' = k
      · subst h'
        simp [mapGet] at h
        subst h
        exact List.mem_cons_self _ _
      · simp only [mapGet, if_neg h'] at h
        exact List.mem_cons_of_mem _ (ih h)

theorem storeWF_entry (nodes : StrMap Node) (dm : String → Nat)
    (hwf : storeWFb nodes dm = true) (cid : String) (node : Node)
    (hmem : (cid, node) ∈ nodes) :
    node.id = cid ∧ ∀ pid, node.parentId = some pid →
      (∃ pnode, mapGet nodes pid = some pnode) ∧ dm pid < dm cid := by
  unfold storeWFb at hwf
  rw [Bool.and_eq_true] at hwf
  have h := (List.all_eq_true.mp hwf.2) (cid, node) hmem
  rw [Bool.and_eq_true] at h
  refine ⟨by simpa using h.1, fun pid hpid => ?_⟩
  have h2 := h.2
  rw [hpid] at h2
  simp only [Bool.and_eq_true, decide_eq_true_eq, Option.isSome_iff_exists] at h2
  exact h2

/-- The relation that makes a path a root-to-target parent chain: each
element is the parent of its successor. -/
def parentStep (a b : Node) : Prop := b.parentId = some a.id

theorem getNodePath_walk (nodes : StrMap Node) (dm : String → Nat)
    (hwf : storeWFb nodes dm = true) :
    ∀ fuel cid node, mapGet nodes cid = some node → dm cid < fuel →
      ∃ path, getNodePathAux nodes (some cid) fuel = some path
        ∧ path.getLast? = some node
        ∧ (∃ h rest, path = h :: rest ∧ h.parentId = none)
        ∧ List.Chain' parentStep path := by
  intro fuel
  induction fuel with
  | zero => intro cid node _ hlt; omega
  | succ f ih =>
      intro cid node hget _
      obtain ⟨hid, hpar⟩ := storeWF_entry nodes dm hwf cid node (mapGet_mem _ _ _ hget)
      cases hp : node.parentId with
      | none =>
          refine ⟨[node], ?_, by simp, ⟨node, [], rfl, hp⟩, by simp⟩
          simp [getNodePathAux, hget, hp]
      | some pid =>
          obtain ⟨⟨pnode, hpnode⟩, hdm⟩ := hpar pid hp
          obtain ⟨hpid, _⟩ := storeWF_entry nodes dm hwf pid pnode (mapGet_mem _ _ _ hpnode)
          have hlt' : dm pid < f := by
            have := hdm
            omega
          obtain ⟨ppath, haux, hlast, ⟨hh, hrest, hcons, hroot⟩, hchain⟩ :=
            ih pid pnode hpnode hlt'
          refine ⟨ppath ++ [node], ?_, ?_, ?_, ?_⟩
          · simp [getNodePathAux, hget, hp, haux]
          · simp
          · exact ⟨hh, hrest ++ [node], by simp [hcons], hroot⟩
          · rw [List.chain'_append]
            refine ⟨hchain, List.chain'_singleton node, fun x hx y hy => ?_⟩
            rw [hlast] at hx
            simp only [Option.mem_def, Option.some.injEq] at hx
            simp only [List.head?_cons, Option.mem_def, Option.some.injEq] at hy
            subst hx
            subst hy
            show node.parentId = some pnode.id
            rw [hp, hpid]

/-- Depth measure for the three-node concrete store: the root `p` has depth
0, its children depth 1. -/
def dmPA : String → Nat := fun id => if id = "p" then 0 else 1

/-! ### Claim C2 -/

/-- C2: on a well-formed store (existing ancestors, parent links strictly
decreasing under a depth measure — i.e. an acyclic forest), `getNodePath`
terminates and returns a path that starts at a root node
(`parentId = none`), ends at the queried node, and in which every element
is the parent of its successor. -/
theorem getNodePath_root_to_target (nodes : StrMap Node) (dm : String → Nat)
    (nodeId : String) (node : Node)
    (hwf : storeWFb nodes dm = true) (hn : mapGet nodes nodeId = some node) :
    ∃ path, getNodePathResult nodes nodeId path
      ∧ (∃ h rest, path = h :: rest ∧ h.parentId = none)
      ∧ path.getLast? = some node
      ∧ List.Chain' parentStep path := by
  obtain ⟨path, haux, hlast, hhead, hchain⟩ :=
    getNodePath_walk nodes dm hwf (dm nodeId + 1) nodeId node hn (Nat.lt_succ_self _)
  exact ⟨path, ⟨dm nodeId + 1, haux⟩, hhead, hlast, hchain⟩

/-- C2 witness: the path query for node `a` of the concrete store. -/
theorem getNodePath_root_to_target_witness :
    storeWFb stateC1.nodes dmPA = true ∧ mapGet stateC1.nodes "a" = some nodeA ∧
    (∃ path, getNodePathResult stateC1.nodes "a" path
      ∧ (∃ h rest, path = h :: rest ∧ h.parentId = none)
      ∧ path.getLast? = some nodeA
      ∧ List.Chain' parentStep path) :=
  ⟨by decide, by decide,
   getNodePath_root_to_target stateC1.nodes dmPA "a" nodeA (by decide) (by decide)⟩

/-! ### Claim C3 -/

/-- A one-node store whose single node points at a parent that is absent
from the store (the corruption case of the claim). -/
def nodeOrphan : Node :=
  { id := "c", sessionId := "s1", parentId := some "ghost", content := "stranded",
    nodeType := "user_message", status := "active", branchName := none,
    collapsedSummary := none, generationConfig := none, tokenCount := none,
    siblingIndex := 0, isSelectedPath := true, createdAt := 1, updatedAt := 1 }

/-- Store containing only the orphaned node. -/
def stateOrphan : ChatState := { emptyState with nodes := [("c", nodeOrphan)] }

/-- C3 (counterexample): with the queried node's parent missing from the
store, the walk silently breaks (`if (!node) break`) and `getNodePath`
returns the truncated one-element path `[nodeOrphan]` — whose head is not a
root — rather than failing with a `NotFound` error. -/
theorem getNodePath_truncated_cex :
    getNodePathAux stateOrphan.nodes (some "c") 2 = some [nodeOrphan]
    ∧ nodeOrphan.parentId = some "ghost"
    ∧ mapGet stateOrphan.nodes "ghost" = none := by
  decide

/-- Target-to-root orientation of `parentStep`: each element's parent is
the next element of the list. -/
def childStep (a b : Node) : Prop := a.parentId = some b.id

instance : DecidableRel childStep := fun a b =>
  inferInstanceAs (Decidable (a.parentId = some b.id))

instance : DecidableRel parentStep := fun a b =>
  inferInstanceAs (Decidable (b.parentId = some a.id))

theorem walk_stops_at_gap (nodes : StrMap Node) (missingId : String)
    (hmiss : mapGet nodes missingId = none) :
    ∀ (rest : List Node) (n : Node),
      (∀ m ∈ n :: rest, mapGet nodes m.id = some m) →
      List.Chain' childStep (n :: rest) →
      (∀ t, (n :: rest).getLast? = some t → t.parentId = some missingId) →
      ∃ fuel, getNodePathAux nodes (some n.id) fuel = some (n :: rest).reverse := by
  intro rest
  induction rest with
  | nil =>
      intro n hstored _ hgap
      have hn := hstored n (List.mem_cons_self _ _)
      have hg := hgap n rfl
      refine ⟨2, ?_⟩
      simp [getNodePathAux, hn, hg, hmiss]
  | cons m rest' ih =>
      intro n hstored hchain hgap
      have hn := hstored n (List.mem_cons_self _ _)
      rw [List.chain'_cons] at hchain
      have hnm : n.parentId = some m.id := hchain.1
      obtain ⟨f, hf⟩ := ih m (fun x hx => hstored x (List.mem_cons_of_mem _ hx)) hchain.2
        (fun t ht => hgap t (by rw [List.getLast?_cons_cons]; exact ht))
      refine ⟨f + 1, ?_⟩
      simp [getNodePathAux, hn, hnm, hf]

/-- C3 (amended): when an ancestor anywhere on the walk is missing from the
store, `getNodePath` does not fail: the loop silently breaks at the gap and
returns the truncated partial path — the chain of existing ancestors from
the deepest one (the one whose own parent is missing) down to the queried
node, in that order. -/
theorem getNodePath_missing_ancestor (nodes : StrMap Node)
    (nodeId missingId : String) (chain : List Node) (top tgt : Node)
    (hhead : chain.head? = some top)
    (hlast : chain.getLast? = some tgt)
    (htgt : tgt.id = nodeId)
    (hstored : ∀ n ∈ chain, mapGet nodes n.id = some n)
    (hchain : List.Chain' parentStep chain)
    (hgap : top.parentId = some missingId)
    (hmiss : mapGet nodes missingId = none) :
    getNodePathResult nodes nodeId chain := by
  cases hrev : chain.reverse with
  | nil =>
      have hnil : chain = [] := by simpa using congrArg List.reverse hrev
      rw [hnil] at hhead
      simp at hhead
  | cons t rest =>
      have hchain_eq : chain = (t :: rest).reverse := by
        have h := congrArg List.reverse hrev
        rwa [List.reverse_reverse] at h
      have ht : t = tgt := by
        have h1 : chain.reverse.head? = some t := by rw [hrev]; rfl
        rw [List.head?_reverse] at h1
        rw [hlast] at h1
        exact ((Option.some.injEq _ _).mp h1).symm
      have hstored' : ∀ m ∈ t :: rest, mapGet nodes m.id = some m := by
        intro m hm
        refine hstored m ?_
        rw [hchain_eq, List.mem_reverse]
        exact hm
      have hchain' : List.Chain' childStep (t :: rest) := by
        rw [hchain_eq] at hchain
        exact (List.chain'_reverse.mp hchain :)
      have hgap' : ∀ u, (t :: rest).getLast? = some u → u.parentId = some missingId := by
        intro u hu
        have h2 : chain.reverse.getLast? = some u := by rw [hrev]; exact hu
        rw [List.getLast?_reverse, hhead] at h2
        rw [← (Option.some.injEq _ _).mp h2]
        exact hgap
      obtain ⟨fuel, hf⟩ := walk_stops_at_gap nodes missingId hmiss rest t hstored' hchain' hgap'
      refine ⟨fuel, ?_⟩
      rw [← hchain_eq] at hf
      rw [ht, htgt] at hf
      exact hf

/-- Store for the deeper-gap case: `leaf`'s parent `mid` exists, but
`mid`'s parent `ghost` is absent from the store. -/
def nodeMid : Node :=
  { id := "mid", sessionId := "s1", parentId := some "ghost", content := "surviving parent",
    nodeType := "assistant_message", status := "active", branchName := none,
    collapsedSummary := none, generationConfig := none, tokenCount := none,
    siblingIndex := 0, isSelectedPath := true, createdAt := 1, updatedAt := 1 }

/-- The queried node of the deeper-gap store; its parent is `nodeMid`. -/
def nodeLeaf : Node :=
  { id := "leaf", sessionId := "s1", parentId := some "mid", content := "target",
    nodeType := "user_message", status := "active", branchName := none,
    collapsedSummary := none, generationConfig := none, tokenCount := none,
    siblingIndex := 0, isSelectedPath := true, createdAt := 2, updatedAt := 2 }

/-- Store where the gap is one level above the queried node's parent. -/
def stateDeepGap : ChatState :=
  { emptyState with nodes := [("mid", nodeMid), ("leaf", nodeLeaf)] }

/-- C3 witness: a missing grandparent; the truncated path is
`[nodeMid, nodeLeaf]` — the existing ancestor chain down to the target. -/
theorem getNodePath_missing_ancestor_witness :
    ([nodeMid, nodeLeaf].head? = some nodeMid)
    ∧ ([nodeMid, nodeLeaf].getLast? = some nodeLeaf)
    ∧ nodeLeaf.id = "leaf"
    ∧ (∀ n ∈ [nodeMid, nodeLeaf], mapGet stateDeepGap.nodes n.id = some n)
    ∧ List.Chain' parentStep [nodeMid, nodeLeaf]
    ∧ nodeMid.parentId = some "ghost"
    ∧ mapGet stateDeepGap.nodes "ghost" = none
    ∧ getNodePathResult stateDeepGap.nodes "leaf" [nodeMid, nodeLeaf] :=
  have hch : List.Chain' parentStep [nodeMid, nodeLeaf] := by
    rw [List.chain'_cons]
    exact ⟨by decide, List.chain'_singleton _⟩
  ⟨by decide, by decide, by decide, by decide, hch, by decide, by decide,
   getNodePath_missing_ancestor stateDeepGap.nodes "leaf" "ghost" [nodeMid, nodeLeaf]
     nodeMid nodeLeaf (by decide) (by decide) (by decide) (by decide) hch
     (by decide) (by decide)⟩

/-! ### Claim C4 -/

/-- First half of a two-node `parentId` cycle. -/
def nodeX : Node :=
  { id := "x", sessionId := "s1", parentId := some "y", content := "first",
    nodeType := "user_message", status := "active", branchName := none,
    collapsedSummary := none, generationConfig := none, tokenCount := none,
    siblingIndex := 0, isSelectedPath := true, createdAt := 1, updatedAt := 1 }

/-- Second half of the cycle: its parent is `nodeX`, closing the loop. -/
def nodeY : Node :=
  { id := "y", sessionId := "s1", parentId := some "x", content := "second",
    nodeType := "assistant_message", status := "active", branchName := none,
    collapsedSummary := none, generationConfig := none, tokenCount := none,
    siblingIndex := 0, isSelectedPath := true, createdAt := 2, updatedAt := 2 }

/-- A store corrupted with a two-node `parentId` cycle. -/
def stateCycle : ChatState := { emptyState with nodes := [("x", nodeX), ("y", nodeY)] }

theorem cycle_walk_never_stops (fuel : Nat) :
    getNodePathAux stateCycle.nodes (some "x") fuel = none
    ∧ getNodePathAux stateCycle.nodes (some "y") fuel = none := by
  induction fuel with
  | zero => exact ⟨rfl, rfl⟩
  | succ f ih =>
      constructor
      · have hx : mapGet stateCycle.nodes "x" = some nodeX := by decide
        simp [getNodePathAux, hx, show nodeX.parentId = some "y" from rfl, ih.2]
      · have hy : mapGet stateCycle.nodes "y" = some nodeY := by decide
        simp [getNodePathAux, hy, show nodeY.parentId = some "x" from rfl, ih.1]

/-- C4 (counterexample): on a store corrupted with a two-node `parentId`
cycle the walk of `getNodePath` never reaches its exit condition at any
fuel: there is no defensive maximum-depth guard and the `while` loop runs
forever. -/
theorem getNodePath_cycle_diverges_cex : getNodePathDiverges stateCycle.nodes "x" :=
  fun fuel => (cycle_walk_never_stops fuel).1

/-- C4 (amended): the walk terminates on every store whose parent links
strictly decrease a depth measure (every acyclic, well-formed store), the
bound being the queried node's depth; but the termination comes from the
structure of the data, not from any maximum-depth guard, and on a store
corrupted with a `parentId` cycle the loop does not terminate. -/
theorem getNodePath_terminates_on_acyclic (nodes : StrMap Node) (dm : String → Nat)
    (nodeId : String) (node : Node)
    (hwf : storeWFb nodes dm = true) (hn : mapGet nodes nodeId = some node) :
    ∃ path, getNodePathAux nodes (some nodeId) (dm nodeId + 1) = some path := by
  obtain ⟨path, haux, -, -, -⟩ :=
    getNodePath_walk nodes dm hwf (dm nodeId + 1) nodeId node hn (Nat.lt_succ_self _)
  exact ⟨path, haux⟩

/-- C4 witness: termination on the concrete three-node store. -/
theorem getNodePath_terminates_on_acyclic_witness :
    storeWFb stateC1.nodes dmPA = true ∧ mapGet stateC1.nodes "b" = some nodeB ∧
    (∃ path, getNodePathAux stateC1.nodes (some "b") (dmPA "b" + 1) = some path) :=
  ⟨by decide, by decide,
   getNodePath_terminates_on_acyclic stateC1.nodes dmPA "b" nodeB (by decide) (by decide)⟩

/-! ### Claim C5 -/

/-- The ordering the claim asserts: by `siblingIndex`, ties broken by
`createdAt`. -/
def sibCreatedLE (a b : Node) : Prop :=
  a.siblingIndex < b.siblingIndex
  ∨ (a.siblingIndex = b.siblingIndex ∧ a.createdAt ≤ b.createdAt)

instance : DecidableRel sibCreatedLE := fun a b => by
  unfold sibCreatedLE
  infer_instance

/-- Root of the tie-breaking test store. -/
def nodeQ : Node :=
  { id := "q", sessionId := "s2", parentId := none, content := "root",
    nodeType := "assistant_message", status := "active", branchName := none,
    collapsedSummary := none, generationConfig := none, tokenCount := none,
    siblingIndex := 0, isSelectedPath := true, createdAt := 1, updatedAt := 1 }

/-- Child inserted into the store first, but created later (`createdAt = 10`). -/
def nodeT1 : Node :=
  { id := "t1", sessionId := "s2", parentId := some "q", content := "later creation",
    nodeType := "user_message", status := "active", branchName := none,
    collapsedSummary := none, generationConfig := none, tokenCount := none,
    siblingIndex := 0, isSelectedPath := false, createdAt := 10, updatedAt := 10 }

/-- Child inserted into the store second, but created earlier (`createdAt = 5`);
it shares `siblingIndex = 0` with `nodeT1`. -/
def nodeT2 : Node :=
  { id := "t2", sessionId := "s2", parentId := some "q", content := "earlier creation",
    nodeType := "user_message", status := "active", branchName := none,
    collapsedSummary := none, generationConfig := none, tokenCount := none,
    siblingIndex := 0, isSelectedPath := false, createdAt := 5, updatedAt := 5 }

/-- Store with two equal-`siblingIndex` children whose map insertion order
is the reverse of their creation order. -/
def stateTie : ChatState :=
  { emptyState with nodes := [("q", nodeQ), ("t1", nodeT1), ("t2", nodeT2)] }

/-- C5 (counterexample): with two children of equal `siblingIndex`,
`getNodeChildren` returns them in store insertion order (`t1` then `t2`)
even though `t2` was created first, so the result is not ordered by the
pair `(siblingIndex, createdAt)`. -/
theorem getNodeChildren_createdAt_cex :
    getNodeChildren "q" stateTie = [nodeT1, nodeT2]
    ∧ ¬ List.Pairwise sibCreatedLE (getNodeChildren "q" stateTie) := by
  refine ⟨by decide, ?_⟩
  intro hp
  have h1 : getNodeChildren "q" stateTie = [nodeT1, nodeT2] := by decide
  rw [h1, List.pairwise_cons] at hp
  have := hp.1 nodeT2 (by simp)
  rcases this with h | h
  · exact absurd h (by decide)
  · exact absurd h.2 (by decide)

/-- C5 (amended): `getNodeChildren` returns exactly the nodes whose
`parentId` equals the queried id — as a stable sort of the store's value
list filtered to those children — ordered by `siblingIndex` alone
(`createdAt` is never consulted; ties keep store insertion order). -/
theorem getNodeChildren_spec (s : ChatState) (nodeId : String) :
    List.Perm (getNodeChildren nodeId s)
      ((mapValues s.nodes).filter (fun n => n.parentId == some nodeId))
    ∧ List.Sorted sibLE (getNodeChildren nodeId s)
    ∧ ∀ n, n ∈ getNodeChildren nodeId s ↔
        (n ∈ mapValues s.nodes ∧ n.parentId = some nodeId) := by
  refine ⟨List.perm_insertionSort sibLE _, List.sorted_insertionSort sibLE _, fun n => ?_⟩
  unfold getNodeChildren
  rw [(List.perm_insertionSort sibLE _).mem_iff, List.mem_filter]
  simp

/-! ### Claim C6 -/

/-- C6: the `NodeType` union declared in `models.ts` has five members, not
the seven the claim lists: the two side-chat node types are missing from it
even though `SideChatPanel.tsx` dispatches on exactly those two strings
when rendering side-chat messages (and the repository changelog records a
migration adding them to the backend).  The declared variant therefore
contradicts its own consumers. -/
theorem nodeType_union_missing_side_chat_types :
    nodeTypeStrings.length = 5
    ∧ "side_chat_user" ∈ sideChatPanelDispatchTypes
    ∧ "side_chat_assistant" ∈ sideChatPanelDispatchTypes
    ∧ "side_chat_user" ∉ nodeTypeStrings
    ∧ "side_chat_assistant" ∉ nodeTypeStrings := by
  decide

/-! ### SSE stream processing (`sendMessageStream`, `api/client.ts`) -/

/-- A parsed server-sent event, as produced by `JSON.parse` followed by the
snake-to-camel key transform in `sendMessageStream`: a `type` discriminator
plus optional `node` and `token` payloads. -/
structure SSEvent where
  type : String
  node : Option Node
  token : Option String

/-- The three callbacks `sendMessageStream` can invoke while reading the
stream (`onError` aborts the whole read and is outside the per-line
dispatch). -/
inductive StreamCallback where
  | onUserNode (node : Node)
  | onToken (token : String)
  | onComplete (node : Node)
deriving Repr, DecidableEq

/-- The characters of the SSE line tag checked by
`line.startsWith('data: ')`. -/
def dataTag : List Char := ['d', 'a', 't', 'a', ':', ' ']

/-- String prefix test on character lists (JS `String.prototype.startsWith`). -/
def leadsWith : List Char → List Char → Bool
  | [], _ => true
  | _ :: _, [] => false
  | c :: cs, d :: ds => c == d && leadsWith cs ds

/-- Whitespace stripped by JS `String.prototype.trim` (the characters that
can actually occur inside an SSE line). -/
def jsWS (c : Char) : Bool := c == ' ' || c == '\t' || c == '\r' || c == '\n'

/-- JS `String.prototype.trim` on character lists. -/
def trimChars (l : List Char) : List Char :=
  ((l.dropWhile jsWS).reverse.dropWhile jsWS).reverse

/-- `processLine` from `sendMessageStream`: ignore lines without the
`data: ` tag, slice the tag off and trim, skip empty payloads, parse the
JSON (an unparseable line is logged and skipped), and dispatch on the
event's `type`, invoking at most one callback.  `parse` abstracts
`JSON.parse` composed with the key transform. -/
def processLine (parse : List Char → Option SSEvent) (line : List Char) :
    List StreamCallback :=
  if leadsWith dataTag line then
    let jsonStr := trimChars (line.drop 6)
    if jsonStr = [] then []
    else
      match parse jsonStr with
      | none => []
      | some ev =>
          if ev.type = "user_node" then
            match ev.node with
            | some n => [StreamCallback.onUserNode n]
            | none => []
          else if ev.type = "token" then
            match ev.token with
            | some t => [StreamCallback.onToken t]
            | none => []
          else if ev.type = "complete" then
            match ev.node with
            | some n => [StreamCallback.onComplete n]
            | none => []
          else []
  else []

/-- `buffer.split('\n')` on character lists; like the JS split it never
returns an empty list (splitting the empty string gives `[""]`). -/
def consHead (c : Char) : List (List Char) → List (List Char)
  | [] => [[c]]
  | l :: ls => (c :: l) :: ls

/-- Split a character list at newline characters. -/
def splitNl : List Char → List (List Char)
  | [] => [[]]
  | c :: rest => if c = '\n' then [] :: splitNl rest else consHead c (splitNl rest)

/-- The last element of a nonempty list of lines (`lines.pop()`). -/
def lastLine : List (List Char) → List Char
  | [] => []
  | [l] => l
  | _ :: l :: ls => lastLine (l :: ls)

/-- Process a list of lines in order, concatenating the emitted callbacks. -/
def emitAll (parse : List Char → Option SSEvent) : List (List Char) → List StreamCallback
  | [] => []
  | l :: rest => processLine parse l ++ emitAll parse rest

/-- The read loop of `sendMessageStream`: on each chunk, append it to the
buffer, split at newlines, keep the trailing fragment as the new buffer
(`buffer = lines.pop()`), and process the complete lines; on the final
`done` read, process everything left in the buffer (the code sets
`buffer = ''` and does not pop the line list). -/
def streamLoop (parse : List Char → Option SSEvent) (buffer : List Char) :
    List (List Char) → List StreamCallback
  | [] => emitAll parse (splitNl buffer)
  | chunk :: rest =>
      let ls := splitNl (buffer ++ chunk)
      emitAll parse ls.dropLast ++ streamLoop parse (lastLine ls) rest

/-- `sendMessageStream` applied to a given chunking of the (decoded) SSE
byte stream: the loop starts with an empty buffer. -/
def sendMessageStreamLoop (parse : List Char → Option SSEvent)
    (chunks : List (List Char)) : List StreamCallback :=
  streamLoop parse [] chunks

/-- Concatenation of the stream's chunks: the full stream text. -/
def catChunks : List (List Char) → List Char
  | [] => []
  | c :: rest => c ++ catChunks rest

/-- Reference semantics: processing the whole stream text as one piece. -/
def sseEvents (parse : List Char → Option SSEvent) (text : List Char) :
    List StreamCallback :=
  emitAll parse (splitNl text)

/-- The token payloads carried by a callback sequence, in order. -/
def tokensOf (cbs : List StreamCallback) : List String :=
  cbs.filterMap (fun cb =>
    match cb with
    | StreamCallback.onToken t => some t
    | _ => none)

theorem consHead_ne_nil (c : Char) (ls : List (List Char)) : consHead c ls ≠ [] := by
  cases ls <;> simp [consHead]

theorem splitNl_ne_nil (l : List Char) : splitNl l ≠ [] := by
  cases l with
  | nil => simp [splitNl]
  | cons c rest =>
      by_cases h : c = '\n' <;> simp [splitNl, h, consHead_ne_nil]

theorem emitAll_append (parse : List Char → Option SSEvent)
    (xs ys : List (List Char)) :
    emitAll parse (xs ++ ys) = emitAll parse xs ++ emitAll parse ys := by
  induction xs with
  | nil => simp [emitAll]
  | cons l rest ih => simp [emitAll, ih]

theorem lastLine_cons_of_ne_nil (x : List Char) (ls : List (List Char))
    (h : ls ≠ []) : lastLine (x :: ls) = lastLine ls := by
  cases ls with
  | nil => exact absurd rfl h
  | cons y ys => rfl

theorem dropLast_cons_of_ne_nil' (x : List Char) (ls : List (List Char))
    (h : ls ≠ []) : (x :: ls).dropLast = x :: ls.dropLast := by
  cases ls with
  | nil => exact absurd rfl h
  | cons y ys => rfl

theorem splitNl_append (a b : List Char) :
    splitNl (a ++ b) =
      (splitNl a).dropLast ++ splitNl (lastLine (splitNl a) ++ b) := by
  induction a with
  | nil => simp [splitNl, lastLine]
  | cons c a' ih =>
      by_cases h : c = '\n'
      · subst h
        have hne := splitNl_ne_nil a'
        have e1 : splitNl ('\n' :: a' ++ b) = [] :: splitNl (a' ++ b) := by
          simp [splitNl]
        have e2 : splitNl ('\n' :: a') = [] :: splitNl a' := by
          simp [splitNl]
        rw [e1, e2, dropLast_cons_of_ne_nil' _ _ hne, lastLine_cons_of_ne_nil _ _ hne]
        simp [ih]
      · have e1 : splitNl (c :: a' ++ b) = consHead c (splitNl (a' ++ b)) := by
          simp [splitNl, h]
        have e2 : splitNl (c :: a') = consHead c (splitNl a') := by
          simp [splitNl, h]
        rw [e1, e2, ih]
        cases hs : splitNl a' with
        | nil => exact absurd hs (splitNl_ne_nil a')
        | cons l ls =>
            cases ls with
            | nil =>
                have e3 : splitNl (c :: (l ++ b)) = consHead c (splitNl (l ++ b)) := by
                  simp [splitNl, h]
                simp [consHead, lastLine, e3]
            | cons y ys =>
                cases hd : splitNl (lastLine (y :: ys) ++ b) with
                | nil => exact absurd hd (splitNl_ne_nil _)
                | cons z zs => simp [consHead, lastLine, hd]

theorem streamLoop_eq_whole (parse : List Char → Option SSEvent) :
    ∀ (chunks : List (List Char)) (buffer : List Char),
      streamLoop parse buffer chunks = emitAll parse (splitNl (buffer ++ catChunks chunks)) := by
  intro chunks
  induction chunks with
  | nil => intro buffer; simp [streamLoop, catChunks]
  | cons chunk rest ih =>
      intro buffer
      show emitAll parse (splitNl (buffer ++ chunk)).dropLast
            ++ streamLoop parse (lastLine (splitNl (buffer ++ chunk))) rest = _
      rw [ih]
      have e1 : buffer ++ catChunks (chunk :: rest)
          = (buffer ++ chunk) ++ catChunks rest := by
        simp [catChunks]
      rw [e1, splitNl_append (buffer ++ chunk) (catChunks rest),
        emitAll_append parse (splitNl (buffer ++ chunk)).dropLast
          (splitNl (lastLine (splitNl (buffer ++ chunk)) ++ catChunks rest))]

/-! ### Claim C8 -/

/-- C8: token delivery is chunking-invariant.  For every abstract JSON
parser and every way of cutting the SSE stream text into chunks, the read
loop of `sendMessageStream` emits exactly the callbacks obtained by
processing the whole stream text line by line — so the `onToken` callback
fires once per token event, in event order, with no reordering,
duplication or loss, and the accumulated text is the in-order
concatenation of the streamed tokens. -/
theorem sendMessageStream_chunk_invariant (parse : List Char → Option SSEvent)
    (chunks : List (List Char)) :
    sendMessageStreamLoop parse chunks = sseEvents parse (catChunks chunks)
    ∧ tokensOf (sendMessageStreamLoop parse chunks)
        = tokensOf (sseEvents parse (catChunks chunks)) := by
  have h : sendMessageStreamLoop parse chunks = sseEvents parse (catChunks chunks) := by
    unfold sendMessageStreamLoop sseEvents
    rw [streamLoop_eq_whole]
    rfl
  exact ⟨h, by rw [h]⟩

/-! ### Key transforms of the API client (`api/client.ts`) -/

/-- Test for the JS regex class `[A-Z]` (code points 65-90). -/
def asciiUpperQ (c : Char) : Bool := decide (65 ≤ c.toNat ∧ c.toNat ≤ 90)

/-- Test for the JS regex class `[a-z]` (code points 97-122). -/
def asciiLowerQ (c : Char) : Bool := decide (97 ≤ c.toNat ∧ c.toNat ≤ 122)

/-- ASCII lowercasing as performed by `letter.toLowerCase()` on `[A-Z]`. -/
def toLowerAscii (c : Char) : Char := Char.ofNat (c.toNat + 32)

/-- ASCII uppercasing as performed by `letter.toUpperCase()` on `[a-z]`. -/
def toUpperAscii (c : Char) : Char := Char.ofNat (c.toNat - 32)

/-- `camelToSnake` on character lists:
`str.replace(/[A-Z]/g, letter => '_' + letter.toLowerCase())`. -/
def camelToSnakeChars : List Char → List Char
  | [] => []
  | c :: rest =>
      if asciiUpperQ c then '_' :: toLowerAscii c :: camelToSnakeChars rest
      else c :: camelToSnakeChars rest

/-- `snakeToCamel` on character lists:
`str.replace(/_([a-z])/g, (_, letter) => letter.toUpperCase())`, with the
regex engine's left-to-right, non-overlapping scan: an underscore not
followed by a lowercase ASCII letter is kept and scanning resumes at the
next character. -/
def snakeToCamelChars : List Char → List Char
  | [] => []
  | c :: rest =>
      if c = '_' then
        match rest with
        | [] => ['_']
        | d :: rest2 =>
            if asciiLowerQ d then toUpperAscii d :: snakeToCamelChars rest2
            else '_' :: snakeToCamelChars (d :: rest2)
      else c :: snakeToCamelChars rest

/-- `camelToSnake` from `api/client.ts`. -/
def camelToSnake (s : String) : String := ⟨camelToSnakeChars s.data⟩

/-- `snakeToCamel` from `api/client.ts`. -/
def snakeToCamel (s : String) : String := ⟨snakeToCamelChars s.data⟩

theorem toNat_ofNat_valid (n : Nat) (h : n.isValidChar) : (Char.ofNat n).toNat = n := by
  simp [Char.ofNat, h, Char.toNat, Char.ofNatAux, UInt32.toNat, UInt32.ofNat']

theorem toLowerAscii_toNat (c : Char) (h : asciiUpperQ c = true) :
    (toLowerAscii c).toNat = c.toNat + 32 := by
  rw [asciiUpperQ, decide_eq_true_eq] at h
  exact toNat_ofNat_valid _ (Or.inl (by omega))

theorem asciiLowerQ_toLowerAscii (c : Char) (h : asciiUpperQ c = true) :
    asciiLowerQ (toLowerAscii c) = true := by
  have hl := toLowerAscii_toNat c h
  rw [asciiUpperQ, decide_eq_true_eq] at h
  rw [asciiLowerQ, decide_eq_true_eq, hl]
  omega

theorem toLowerAscii_ne_underscore (c : Char) (h : asciiUpperQ c = true) :
    toLowerAscii c ≠ '_' := by
  intro he
  have hl := toLowerAscii_toNat c h
  rw [asciiUpperQ, decide_eq_true_eq] at h
  rw [he] at hl
  have h95 : ('_' : Char).toNat = 95 := rfl
  omega

theorem toUpperAscii_toLowerAscii (c : Char) (h : asciiUpperQ c = true) :
    toUpperAscii (toLowerAscii c) = c := by
  have hl := toLowerAscii_toNat c h
  rw [toUpperAscii, hl, Nat.add_sub_cancel]
  exact Char.ofNat_toNat c

theorem snakeToCamelChars_underscore_lower (d : Char) (rest : List Char)
    (hd : asciiLowerQ d = true) :
    snakeToCamelChars ('_' :: d :: rest) = toUpperAscii d :: snakeToCamelChars rest := by
  rw [snakeToCamelChars.eq_def]
  simp [hd]

theorem snakeToCamelChars_other (c : Char) (rest : List Char) (hc : ¬ c = '_') :
    snakeToCamelChars (c :: rest) = c :: snakeToCamelChars rest := by
  rw [snakeToCamelChars.eq_def]
  simp [hc]

theorem camelSnakeChars_roundtrip :
    ∀ l : List Char, '_' ∉ l → snakeToCamelChars (camelToSnakeChars l) = l := by
  intro l
  induction l with
  | nil => intro _; rfl
  | cons c rest ih =>
      intro h
      rw [List.mem_cons, not_or] at h
      obtain ⟨hc, hrest⟩ := h
      by_cases hu : asciiUpperQ c = true
      · rw [camelToSnakeChars, if_pos hu]
        rw [snakeToCamelChars_underscore_lower _ _ (asciiLowerQ_toLowerAscii c hu)]
        rw [toUpperAscii_toLowerAscii c hu, ih hrest]
      · rw [camelToSnakeChars, if_neg hu]
        rw [snakeToCamelChars_other c _ (fun he => hc (he ▸ rfl))]
        rw [ih hrest]

/-!
JSON values as seen by `transformKeys` (`api/client.ts`): null and the
scalars are returned unchanged, arrays are mapped elementwise, and objects
have each key transformed and each value transformed recursively.  The
array and object spines are mutual inductives so that the structural
recursion of the source translates directly.
-/

mutual

/-- A JSON value. -/
inductive Json where
  | null : Json
  | bool (b : Bool) : Json
  | num (n : Int) : Json
  | str (s : String) : Json
  | arr (items : JsonArr) : Json
  | obj (fields : JsonObj) : Json

inductive JsonArr where
  | nil : JsonArr
  | cons (hd : Json) (tl : JsonArr) : JsonArr

inductive JsonObj where
  | nil : JsonObj
  | cons (key : String) (val : Json) (tl : JsonObj) : JsonObj

end

mutual

/-- `transformKeys` from `api/client.ts`, specialised to a key transformer. -/
def transformKeys (t : String → String) : Json → Json
  | .null => .null
  | .bool b => .bool b
  | .num n => .num n
  | .str s => .str s
  | .arr items => .arr (transformKeysArr t items)
  | .obj fields => .obj (transformKeysObj t fields)

/-- `transformKeys` mapped over an array (`obj.map(item => ...)`). -/
def transformKeysArr (t : String → String) : JsonArr → JsonArr
  | .nil => .nil
  | .cons hd tl => .cons (transformKeys t hd) (transformKeysArr t tl)

/-- `transformKeys` over an object's entries
(`result[transformer(key)] = transformKeys(value, transformer)`). -/
def transformKeysObj (t : String → String) : JsonObj → JsonObj
  | .nil => .nil
  | .cons k v tl => .cons (t k) (transformKeys t v) (transformKeysObj t tl)

end

mutual

/-- Every object key in the value, at any depth, is underscore-free. -/
def keysUnderscoreFree : Json → Bool
  | .null => true
  | .bool _ => true
  | .num _ => true
  | .str _ => true
  | .arr items => keysUnderscoreFreeArr items
  | .obj fields => keysUnderscoreFreeObj fields

/-- `keysUnderscoreFree` over an array spine. -/
def keysUnderscoreFreeArr : JsonArr → Bool
  | .nil => true
  | .cons hd tl => keysUnderscoreFree hd && keysUnderscoreFreeArr tl

/-- `keysUnderscoreFree` over an object spine. -/
def keysUnderscoreFreeObj : JsonObj → Bool
  | .nil => true
  | .cons k v tl =>
      decide ('_' ∉ k.data) && keysUnderscoreFree v && keysUnderscoreFreeObj tl

end

theorem snakeToCamel_camelToSnake (s : String) (h : '_' ∉ s.data) :
    snakeToCamel (camelToSnake s) = s := by
  cases s with
  | mk l =>
      show String.mk (snakeToCamelChars (camelToSnakeChars l)) = String.mk l
      rw [camelSnakeChars_roundtrip l h]

mutual

theorem transformKeys_roundtrip (v : Json) (h : keysUnderscoreFree v = true) :
    transformKeys snakeToCamel (transformKeys camelToSnake v) = v :=
  match v, h with
  | .null, _ => rfl
  | .bool _, _ => rfl
  | .num _, _ => rfl
  | .str _, _ => rfl
  | .arr items, h => by
      rw [transformKeys, transformKeys,
        transformKeysArr_roundtrip items (by simpa [keysUnderscoreFree] using h)]
  | .obj fields, h => by
      rw [transformKeys, transformKeys,
        transformKeysObj_roundtrip fields (by simpa [keysUnderscoreFree] using h)]

theorem transformKeysArr_roundtrip (items : JsonArr)
    (h : keysUnderscoreFreeArr items = true) :
    transformKeysArr snakeToCamel (transformKeysArr camelToSnake items) = items :=
  match items, h with
  | .nil, _ => rfl
  | .cons hd tl, h => by
      rw [keysUnderscoreFreeArr, Bool.and_eq_true] at h
      rw [transformKeysArr, transformKeysArr,
        transformKeys_roundtrip hd h.1, transformKeysArr_roundtrip tl h.2]

theorem transformKeysObj_roundtrip (fields : JsonObj)
    (h : keysUnderscoreFreeObj fields = true) :
    transformKeysObj snakeToCamel (transformKeysObj camelToSnake fields) = fields :=
  match fields, h with
  | .nil, _ => rfl
  | .cons k v tl, h => by
      rw [keysUnderscoreFreeObj, Bool.and_eq_true, Bool.and_eq_true] at h
      rw [transformKeysObj, transformKeysObj,
        snakeToCamel_camelToSnake k (by simpa using h.1.1),
        transformKeys_roundtrip v h.1.2, transformKeysObj_roundtrip tl h.2]

end

/-! ### Claim C10 -/

/-- C10: for every key with no underscore, `camelToSnake` then
`snakeToCamel` gives back the original key, and consequently the request
transform `transformKeys(body, camelToSnake)` is inverted by the response
transform `transformKeys(data, snakeToCamel)` on any JSON value all of
whose object keys (at any depth) are underscore-free. -/
theorem camelSnake_inverse :
    (∀ s : String, '_' ∉ s.data → snakeToCamel (camelToSnake s) = s)
    ∧ (∀ v : Json, keysUnderscoreFree v = true →
        transformKeys snakeToCamel (transformKeys camelToSnake v) = v) :=
  ⟨snakeToCamel_camelToSnake, transformKeys_roundtrip⟩

/-- A concrete request body:
the object with fields `parentNodeId`, `includeRag` and a nested list. -/
def demoBody : Json :=
  Json.obj (JsonObj.cons "parentNodeId" (Json.str "abc")
    (JsonObj.cons "includeRag" (Json.bool true)
      (JsonObj.cons "items" (Json.arr (JsonArr.cons (Json.num 3) JsonArr.nil))
        JsonObj.nil)))

/-- C10 witness: the round trip evaluated on a concrete key and a concrete
request body. -/
theorem camelSnake_inverse_witness :
    ('_' ∉ "parentNodeId".data ∧ snakeToCamel (camelToSnake "parentNodeId") = "parentNodeId")
    ∧ (keysUnderscoreFree demoBody = true
        ∧ transformKeys snakeToCamel (transformKeys camelToSnake demoBody) = demoBody) :=
  ⟨⟨by decide, camelSnake_inverse.1 "parentNodeId" (by decide)⟩,
   ⟨by decide, camelSnake_inverse.2 demoBody (by decide)⟩⟩

/-! ### Context assembly (spec-modelled) -/

/-- A chat message as consumed by the completion service
(`ConversationMessage` in `models.ts`). -/
structure Message where
  role : String
  content : String
deriving Repr, DecidableEq

/-- Modelled from the spec: the backend ContextAssembler is not among the
sources here (the repository slice contains only the frontend; `models.ts`
only declares its output shape `ConversationMessage`).  Per spec §4.4
step 3, a path node is mapped to at most one message: a collapsed node
with a summary becomes the synthetic
`[Previous discussion summary: ...]` system message; a collapsed node
without a summary is omitted entirely; a `user_note` becomes a system-role
aside; `user_message`/`assistant_message` map to their roles verbatim. -/
def nodeToMessage (n : Node) : Option Message :=
  if n.status = "collapsed" then
    match n.collapsedSummary with
    | some summ =>
        some ⟨"system", "[Previous discussion summary: " ++ summ ++ "]"⟩
    | none => none
  else if n.nodeType = "user_note" then some ⟨"system", n.content⟩
  else if n.nodeType = "user_message" then some ⟨"user", n.content⟩
  else if n.nodeType = "assistant_message" then some ⟨"assistant", n.content⟩
  else none

/-- Total estimated token count of a message list, for an abstract
estimator `est` over message contents. -/
def estList (est : String → Nat) (msgs : List Message) : Nat :=
  (msgs.map (fun m => est m.content)).sum

/-- Modelled from the spec: the optional retrieved-memory block of §4.4
step 2, emitted as a single system-role message when RAG is enabled. -/
def ragMsgsOf : Option String → List Message
  | some r => [⟨"system", r⟩]
  | none => []

/-- Modelled from the spec: §4.4 step 3's truncation walk over the path
history, newest first — keep adding an older message only while the
running token count would still leave the reserved headroom for the
model's response. -/
def fitHistory (est : String → Nat) (maxTokens headroom : Nat) :
    Nat → List Message → List Message
  | _, [] => []
  | running, m :: older =>
      if running + est m.content + headroom ≤ maxTokens then
        m :: fitHistory est maxTokens headroom (running + est m.content) older
      else []

/-- Modelled from the spec: `buildMainContext` of §4.4.  Emit the fixed
system instruction, the optional RAG block, the path history mapped by
`nodeToMessage` and truncated from the oldest end under the headroom rule,
and finally the new user text; the system/RAG blocks and the user message
are never dropped. -/
def buildMainContext (est : String → Nat) (systemText : String)
    (ragBlock : Option String) (path : List Node) (newUserText : String)
    (maxTokens headroom : Nat) : List Message :=
  let ragMsgs := ragMsgsOf ragBlock
  let base := est systemText + estList est ragMsgs + est newUserText
  let kept :=
    (fitHistory est maxTokens headroom base (path.filterMap nodeToMessage).reverse).reverse
  ⟨"system", systemText⟩ :: ragMsgs ++ kept ++ [⟨"user", newUserText⟩]

theorem estList_append (est : String → Nat) (a b : List Message) :
    estList est (a ++ b) = estList est a + estList est b := by
  simp [estList]

theorem estList_reverse (est : String → Nat) (a : List Message) :
    estList est a.reverse = estList est a := by
  simp [estList, List.map_reverse, List.sum_reverse]

theorem fitHistory_sum (est : String → Nat) (maxTokens headroom : Nat) :
    ∀ (msgs : List Message) (running : Nat), running + headroom ≤ maxTokens →
      running + estList est (fitHistory est maxTokens headroom running msgs) + headroom
        ≤ maxTokens := by
  intro msgs
  induction msgs with
  | nil => intro running h; simpa [fitHistory, estList] using h
  | cons m older ih =>
      intro running h
      rw [fitHistory]
      split
      · rename_i hcond
        have := ih (running + est m.content) hcond
        simp only [estList, List.map_cons, List.sum_cons] at this ⊢
        omega
      · simpa [estList] using h

theorem fitHistory_takes_front (est : String → Nat) (maxTokens headroom : Nat) :
    ∀ (msgs : List Message) (running : Nat),
      ∃ rest, msgs = fitHistory est maxTokens headroom running msgs ++ rest := by
  intro msgs
  induction msgs with
  | nil => intro running; exact ⟨[], rfl⟩
  | cons m older ih =>
      intro running
      rw [fitHistory]
      split
      · obtain ⟨rest, hrest⟩ := ih (running + est m.content)
        exact ⟨rest, by rw [List.cons_append, ← hrest]⟩
      · exact ⟨m :: older, rfl⟩

/-! ### Claim C9 -/

/-- C9 (counterexample): the untruncatable blocks are never dropped, so
when they alone exceed the budget the assembled list exceeds `maxTokens`.
With the character-count estimator, `maxTokens = 0` and a nonempty user
message, the estimated total is positive, violating the claimed bound. -/
theorem buildMainContext_exceeds_cex :
    ¬ (estList String.length
        (buildMainContext String.length "You are K-Base." none [] "hi" 0 1000) ≤ 0) := by
  decide

/-- C9 (amended): whenever the fixed blocks (system instruction, RAG
block, new user text) plus the reserved headroom fit within `maxTokens`,
the assembled message list's estimated token count is at most `maxTokens`;
the list always consists of the system message, the RAG block, a kept
history segment and the final user message, and the kept history is a
suffix of the mapped path (truncation removes only the oldest history,
never the system/RAG blocks or the user message). -/
theorem buildMainContext_bounded (est : String → Nat) (systemText : String)
    (ragBlock : Option String) (path : List Node) (newUserText : String)
    (maxTokens headroom : Nat)
    (hfit : est systemText + estList est (ragMsgsOf ragBlock) + est newUserText + headroom
      ≤ maxTokens) :
    estList est (buildMainContext est systemText ragBlock path newUserText maxTokens headroom)
      ≤ maxTokens
    ∧ ∃ kept pre,
        buildMainContext est systemText ragBlock path newUserText maxTokens headroom
          = ⟨"system", systemText⟩ :: ragMsgsOf ragBlock ++ kept ++ [⟨"user", newUserText⟩]
        ∧ path.filterMap nodeToMessage = pre ++ kept := by
  set base := est systemText + estList est (ragMsgsOf ragBlock) + est newUserText with hbase
  set fitted := fitHistory est maxTokens headroom base (path.filterMap nodeToMessage).reverse
    with hfitted
  have hshape : buildMainContext est systemText ragBlock path newUserText maxTokens headroom
      = ⟨"system", systemText⟩ :: ragMsgsOf ragBlock ++ fitted.reverse ++ [⟨"user", newUserText⟩] := by
    rfl
  constructor
  · rw [hshape]
    have hsum := fitHistory_sum est maxTokens headroom
      (path.filterMap nodeToMessage).reverse base hfit
    rw [← hfitted] at hsum
    simp only [estList, List.map_cons, List.sum_cons, List.map_append, List.sum_append]
    have hrev : estList est fitted.reverse = estList est fitted := estList_reverse est fitted
    simp only [estList] at hrev hsum
    simp only [hbase, estList] at hsum
    simp only [List.map_cons, List.sum_cons, List.map_nil, List.sum_nil]
    omega
  · obtain ⟨rest, hrest⟩ := fitHistory_takes_front est maxTokens headroom
      (path.filterMap nodeToMessage).reverse base
    rw [← hfitted] at hrest
    refine ⟨fitted.reverse, rest.reverse, hshape, ?_⟩
    have hr := congrArg List.reverse hrest
    rwa [List.reverse_reverse, List.reverse_append] at hr

/-- C9 witness: a concrete assembly whose fixed blocks fit the budget. -/
theorem buildMainContext_bounded_witness :
    (String.length "sys" + estList String.length (ragMsgsOf (some "rag"))
      + String.length "hi" + 10 ≤ 100)
    ∧ (estList String.length
        (buildMainContext String.length "sys" (some "rag") [nodeA] "hi" 100 10) ≤ 100
      ∧ ∃ kept pre,
          buildMainContext String.length "sys" (some "rag") [nodeA] "hi" 100 10
            = ⟨"system", "sys"⟩ :: ragMsgsOf (some "rag") ++ kept ++ [⟨"user", "hi"⟩]
          ∧ [nodeA].filterMap nodeToMessage = pre ++ kept) :=
  ⟨by decide,
   buildMainContext_bounded String.length "sys" (some "rag") [nodeA] "hi" 100 10 (by decide)⟩

end KBase
